import Mathlib

/-!
Verification development for a small socket template library.

The library has two parts:

* `pack.py` — a pickle-like codec: `dumps` turns a Python value (bool, int,
  float, str, bytes, tuple, list, dict) into a tagged byte string; `loads`
  is declared but left as an empty stub in the source.
* `server.py` — a framed channel: `Client.send` prefixes an encrypted payload
  with a 64-byte ASCII decimal length header and writes it in chunks of at
  most 8192 bytes; `Client.recv` accumulates the header and payload from the
  socket.

Bytes are modelled as natural numbers, byte strings as `List Nat`, Python
ints as `Int`, Python strs as lists of Unicode code points, and Python
floats by the four bytes of their packed IEEE-754 single-precision form
(the codec only ever moves those four bytes around, never arithmetic on
them). Fallible Python code (raising exceptions) is modelled with `Except`.

Recursive functions over `Value` carry a fuel argument that only serves
termination; each comes with a wrapper supplying sufficient fuel and a
fuel-irrelevance lemma showing the choice of sufficient fuel does not
matter.
-/

/-- The exceptions the packing code in `pack.py` can raise:
`struct.error` from `struct.pack`, the explicit `ValueError` branches of
`pack_int`/`pack_float`, and the `NotImplementedError` raised by `dumps`
for a value outside the allowed types. -/
inductive EncodeErr where
  | structError
  | valueError
  | notImplemented
  deriving DecidableEq

/-- Python values of the types `dumps` dispatches on.  `VFloat` carries the
four bytes of the float packed as IEEE-754 single precision. `VStr` carries
the string's Unicode code points. `VDict` carries the key/value pairs in the
dict's iteration (insertion) order. `VOther n` stands for any Python object
outside the allowed set (`n` distinguishing different such objects). -/
inductive Value where
  | VBool (b : Bool)
  | VInt (i : Int)
  | VFloat (b0 b1 b2 b3 : Nat)
  | VStr (s : List Nat)
  | VBytes (bs : List Nat)
  | VTuple (xs : List Value)
  | VList (xs : List Value)
  | VDict (ps : List (Value × Value))
  | VOther (n : Nat)

compile_inductive% Value

/-- `struct.pack("<I", i)`: packs `i` as an unsigned 32-bit little-endian
integer, raising `struct.error` when `i` is negative or does not fit. -/
def struct_pack_I (i : Int) : Except EncodeErr (List Nat) :=
  if 0 ≤ i ∧ i < 4294967296 then
    .ok [i.toNat % 256, i.toNat / 256 % 256, i.toNat / 65536 % 256, i.toNat / 16777216 % 256]
  else .error .structError

/-- `pack_int` from `pack.py`: `struct.pack("<I", i)` followed by an explicit
length check raising `ValueError` when the packed result is not 4 bytes. -/
def pack_int (i : Int) : Except EncodeErr (List Nat) :=
  match struct_pack_I i with
  | .error e => .error e
  | .ok packed => if packed.length ≠ 4 then .error .valueError else .ok packed

/-- `struct.pack("f", x)`: packs a float as IEEE-754 single precision, always
producing exactly 4 bytes (out-of-range doubles become infinities, they do
not raise).  Our floats are already carried as their 4 packed bytes. -/
def struct_pack_f (b0 b1 b2 b3 : Nat) : List Nat := [b0, b1, b2, b3]

/-- `pack_float` from `pack.py`: `struct.pack("f", x)` followed by an explicit
length check raising `ValueError` when the packed result is not 4 bytes. -/
def pack_float (b0 b1 b2 b3 : Nat) : Except EncodeErr (List Nat) :=
  let packed := struct_pack_f b0 b1 b2 b3
  if packed.length ≠ 4 then .error .valueError else .ok packed

/-- UTF-8 encoding of a single Unicode code point (what `str.encode()` emits
for each code point). -/
def utf8EncodeChar (c : Nat) : List Nat :=
  if c < 128 then [c]
  else if c < 2048 then [192 + c / 64, 128 + c % 64]
  else if c < 65536 then [224 + c / 4096, 128 + c / 64 % 64, 128 + c % 64]
  else [240 + c / 262144, 128 + c / 4096 % 64, 128 + c / 64 % 64, 128 + c % 64]

/-- `str.encode()`: the UTF-8 bytes of a string given as code points. -/
def utf8Encode (s : List Nat) : List Nat := (s.map utf8EncodeChar).flatten

/-- `isinstance(v, bool)`. -/
def isinstance_bool : Value → Bool
  | .VBool _ => true
  | _ => false

/-- `isinstance(v, int)`.  In Python `bool` is a subclass of `int`, so this
is also true for `True` and `False`. -/
def isinstance_int : Value → Bool
  | .VBool _ => true
  | .VInt _ => true
  | _ => false

mutual

/-- Fueled form of `dumps` from `pack.py`.  The match arms are in the order
of the source's `isinstance` chain (bool is tested before int, so a bool
never reaches the int branch).  Note the str branch length-prefixes with
`pack_int(len(obj))` — the number of code points — while appending
`obj.encode()`, the UTF-8 bytes.  The fuel only serves termination: the
wrapper `dumps` supplies `sizeOf v + 1`, which always suffices, and the
fuel-exhaustion arm is unreachable from it. -/
def dumpsF : Nat → Value → Except EncodeErr (List Nat)
  | 0, _ => .error .notImplemented
  | _ + 1, .VBool b => .ok [0, if b then 1 else 0]
  | _ + 1, .VInt i => (pack_int i).map (fun p => 1 :: p)
  | _ + 1, .VFloat b0 b1 b2 b3 => (pack_float b0 b1 b2 b3).map (fun p => 2 :: p)
  | _ + 1, .VStr s => (pack_int (Int.ofNat s.length)).map (fun p => 3 :: p ++ utf8Encode s)
  | _ + 1, .VBytes bs => (pack_int (Int.ofNat bs.length)).map (fun p => 4 :: p ++ bs)
  | fuel + 1, .VTuple xs =>
    (pack_int (Int.ofNat xs.length)).bind
      (fun p => (dumpsListF fuel xs).map (fun ds => 5 :: p ++ ds))
  | fuel + 1, .VList xs =>
    (pack_int (Int.ofNat xs.length)).bind
      (fun p => (dumpsListF fuel xs).map (fun ds => 6 :: p ++ ds))
  | fuel + 1, .VDict ps =>
    (pack_int (Int.ofNat ps.length)).bind
      (fun p => (dumpsPairsF fuel ps).map (fun ds => 7 :: p ++ ds))
  | _ + 1, .VOther _ => .error .notImplemented

/-- Fueled form of the `for o in obj: data += dumps(o)` loop of the
tuple/list branches of `dumps`. -/
def dumpsListF : Nat → List Value → Except EncodeErr (List Nat)
  | 0, _ => .error .notImplemented
  | _ + 1, [] => .ok []
  | fuel + 1, v :: vs =>
    (dumpsF fuel v).bind (fun d => (dumpsListF fuel vs).map (fun ds => d ++ ds))

/-- Fueled form of the `for key, o in obj.items(): data += dumps(key);
data += dumps(o)` loop of the dict branch of `dumps`. -/
def dumpsPairsF : Nat → List (Value × Value) → Except EncodeErr (List Nat)
  | 0, _ => .error .notImplemented
  | _ + 1, [] => .ok []
  | fuel + 1, (k, v) :: ps =>
    (dumpsF fuel k).bind (fun dk => (dumpsF fuel v).bind
      (fun dv => (dumpsPairsF fuel ps).map (fun ds => dk ++ dv ++ ds)))

end

/-- `dumps` from `pack.py`: the fueled encoder with always-sufficient
fuel. -/
def dumps (v : Value) : Except EncodeErr (List Nat) := dumpsF (sizeOf v + 1) v

/-- The tuple/list element loop of `dumps` with always-sufficient fuel. -/
def dumpsList (vs : List Value) : Except EncodeErr (List Nat) :=
  dumpsListF (sizeOf vs + 1) vs

/-- The dict item loop of `dumps` with always-sufficient fuel. -/
def dumpsPairs (ps : List (Value × Value)) : Except EncodeErr (List Nat) :=
  dumpsPairsF (sizeOf ps + 1) ps

example : dumps (.VBool true) = .ok [0, 1] := rfl

example : dumps (.VInt 300) = .ok [1, 44, 1, 0, 0] := rfl

example : dumps (.VStr [104, 105]) = .ok [3, 2, 0, 0, 0, 104, 105] := rfl

example : dumps (.VStr [233]) = .ok [3, 1, 0, 0, 0, 195, 169] := rfl

example : dumps (.VTuple [.VBool false]) = .ok [5, 1, 0, 0, 0, 0, 0] := rfl

example : dumps (.VDict [(.VBool true, .VInt 3)]) = .ok [7, 1, 0, 0, 0, 0, 1, 1, 3, 0, 0, 0] := rfl

/-! ## The framed channel of `server.py` (`Client.send` / `Client.recv`)

`Client.__init__` fixes `self.header = 64` (the header width), `self.padding`
(64 spaces) and `self.packet_size = 8192` (the chunk size). -/

/-- `self.header`: the frame header width in bytes. -/
def headerWidth : Nat := 64

/-- `self.packet_size`: the maximum bytes moved per socket operation. -/
def packet_size : Nat := 8192

/-- Helper for `str(n)`: the ASCII codes of the decimal digits of `n`, most
significant first, empty for `n = 0`.  The fuel argument only serves
termination; `decRepr` instantiates it with `n` itself, which always
suffices since the recursion divides by 10. -/
def decReprAux : Nat → Nat → List Nat
  | 0, _ => []
  | fuel + 1, n => if n = 0 then [] else decReprAux fuel (n / 10) ++ [n % 10 + 48]

/-- `str(n)` for a natural number: its ASCII decimal representation. -/
def decRepr (n : Nat) : List Nat := if n = 0 then [48] else decReprAux n n

/-- `self.padding`: 64 ASCII spaces. -/
def padding : List Nat := List.replicate headerWidth 32

/-- The header built by `Client.send`:
`(str(len(data)) + self.padding)[:self.header]` — the decimal length
right-padded with spaces and cut to exactly 64 bytes. -/
def mkHeader (n : Nat) : List Nat := (decRepr n ++ padding).take headerWidth

/-- Whether a byte is the ASCII space that `int()` strips. -/
def isSpaceB (c : Nat) : Bool := c == 32

/-- Whether a byte is an ASCII decimal digit. -/
def isDigitB (c : Nat) : Bool := decide (48 ≤ c ∧ c ≤ 57)

/-- Strip leading and trailing ASCII spaces, as `int()` does before
parsing. -/
def trimSpaces (s : List Nat) : List Nat :=
  ((s.dropWhile isSpaceB).reverse.dropWhile isSpaceB).reverse

/-- `int(len_msg)` as used by `Client.recv` on the 64-byte header: strips
the space padding and parses the remaining decimal digits, `none` when the
result is not a valid nonnegative integer literal. -/
def parseHeader (s : List Nat) : Option Nat :=
  if trimSpaces s ≠ [] ∧ (trimSpaces s).all isDigitB = true then
    some ((trimSpaces s).foldl (fun a c => 10 * a + (c - 48)) 0)
  else none

/-- The chunking loop of `Client.send`:
`while data: curr_len = min(len(data), packet_size); append data[:curr_len];
data = data[curr_len:]`.  Fuel-driven; `packets` supplies `data.length`
fuel, enough because each round removes at least one byte. -/
def packetsF : Nat → List Nat → List (List Nat)
  | 0, _ => []
  | fuel + 1, data =>
    if data = [] then []
    else
      let currLen := min data.length packet_size
      data.take currLen :: packetsF fuel (data.drop currLen)

/-- The chunk list `packets` built by `Client.send` for a payload. -/
def packets (data : List Nat) : List (List Nat) := packetsF data.length data

/-- The full byte sequence `Client.send` hands to the socket: the 64-byte
header followed by each chunk in order. -/
def sendFrame (data : List Nat) : List Nat :=
  mkHeader data.length ++ (packets data).flatten

/-- `self.conn.recv(n)` against a connection whose peer has closed after
sending the bytes `conn`: returns up to `n` pending bytes, and `b""` once
the pending bytes are exhausted (a closed socket returns empty reads, it
does not raise).  Result: (bytes returned, remaining connection state). -/
def sockRecv (conn : List Nat) (n : Nat) : List Nat × List Nat :=
  (conn.take n, conn.drop n)

/-- The header loop of `Client.recv`:
`while len(len_msg) < header: len_msg += conn.recv(header - len(len_msg))`,
run against a connection closed after sending `conn`.  The fuel bounds how
many loop iterations we observe; `none` means the loop was still running
when the fuel ran out. -/
def recvHeaderLoop : Nat → List Nat → List Nat → Option (List Nat × List Nat)
  | 0, _, _ => none
  | fuel + 1, acc, conn =>
    if acc.length < headerWidth then
      let r := sockRecv conn (headerWidth - acc.length)
      recvHeaderLoop fuel (acc ++ r.1) r.2
    else some (acc, conn)

/-- The payload loop of `Client.recv`:
`while len(data) < length: curr_len = min(packet_size, length - len(data));
data += conn.recv(curr_len)`, against a connection closed after sending
`conn`.  `none` means the loop was still running when the fuel ran out. -/
def recvPayloadLoop : Nat → Nat → List Nat → List Nat → Option (List Nat × List Nat)
  | 0, _, _, _ => none
  | fuel + 1, length, acc, conn =>
    if acc.length < length then
      let r := sockRecv conn (min packet_size (length - acc.length))
      recvPayloadLoop fuel length (acc ++ r.1) r.2
    else some (acc, conn)

example : packets [1, 2, 3] = [[1, 2, 3]] := rfl

example : parseHeader (mkHeader 0) = some 0 := by decide

example : parseHeader (mkHeader 12345) = some 12345 := by decide

/-! ## The decoder

`loads` in `src/pysocket/pack.py` is declared but its body is an empty
stub, so the decoder below is modelled from the specification (§4.1
`decode`), which defines it as the structural inverse of the documented
encoder: read one tag byte, then the fixed payload or the 4-byte count and
that many payload bytes / recursively decoded elements, returning the value
together with the number of bytes consumed. -/

/-- Modelled from the spec: the decode error taxonomy
`DecodeError{UnknownTag, Truncated, InvalidEncoding}` (the source's `loads`
is an empty stub). -/
inductive DecodeErr where
  | unknownTag
  | truncated
  | invalidEncoding
  deriving DecidableEq

/-- Modelled from the spec: reading the 4-byte unsigned little-endian count
that follows a tag (the inverse of `pack_int`); fails with `Truncated` when
fewer than 4 bytes remain.  Returns the count and the remaining bytes. -/
def readCount : List Nat → Except DecodeErr (Nat × List Nat)
  | b0 :: b1 :: b2 :: b3 :: rest =>
    .ok (b0 + 256 * b1 + 65536 * b2 + 16777216 * b3, rest)
  | _ => .error .truncated

/-- Whether a byte is a UTF-8 continuation byte. -/
def isContB (c : Nat) : Bool := decide (128 ≤ c ∧ c < 192)

/-- Modelled from the spec: decoding one UTF-8 sequence whose leading byte
is `b` and whose following bytes start `rest`; returns the code point and
the bytes after the sequence, `none` on an invalid leading byte or missing
or malformed continuation bytes. -/
def utf8DecodeOne (b : Nat) (rest : List Nat) : Option (Nat × List Nat) :=
  if b < 128 then some (b, rest)
  else if b < 194 then none
  else if b < 224 then
    match rest with
    | c1 :: rest2 =>
      if isContB c1 then some ((b - 192) * 64 + (c1 - 128), rest2) else none
    | [] => none
  else if b < 240 then
    match rest with
    | c1 :: c2 :: rest2 =>
      if isContB c1 && isContB c2 then
        some ((b - 224) * 4096 + (c1 - 128) * 64 + (c2 - 128), rest2)
      else none
    | _ => none
  else if b < 245 then
    match rest with
    | c1 :: c2 :: c3 :: rest2 =>
      if isContB c1 && isContB c2 && isContB c3 then
        some ((b - 240) * 262144 + (c1 - 128) * 4096 + (c2 - 128) * 64 + (c3 - 128), rest2)
      else none
    | _ => none
  else none

/-- Modelled from the spec: UTF-8 decoding of a byte sequence into code
points (`bytes.decode()`); `none` when the bytes are not valid UTF-8.  The
fuel argument only serves termination; `utf8Decode` supplies the byte
count, enough because every sequence consumes at least its leading byte. -/
def utf8DecodeF : Nat → List Nat → Option (List Nat)
  | _, [] => some []
  | 0, _ :: _ => none
  | fuel + 1, b :: rest =>
    match utf8DecodeOne b rest with
    | some (c, rest2) => (utf8DecodeF fuel rest2).map (c :: ·)
    | none => none

/-- Modelled from the spec: UTF-8 decoding of a whole byte sequence. -/
def utf8Decode (s : List Nat) : Option (List Nat) := utf8DecodeF s.length s

mutual

/-- Modelled from the spec: `decode(bytes) → (Value, bytes_consumed)`
(§4.1) — one tag byte, then the fixed payload for Bool/Int32/Float32, or
the 4-byte count and exactly that many payload bytes for Text/Bytes, or the
4-byte count and that many recursively decoded elements for the
containers.  `UnknownTag` outside tags 0x00–0x07, `Truncated` when the
buffer is exhausted early, `InvalidEncoding` for invalid UTF-8 Text.  The
fuel only serves termination; `loads` supplies `data.length + 1`, which
always suffices (each decoded value consumes at least its tag byte). -/
def loadsF : Nat → List Nat → Except DecodeErr (Value × Nat)
  | 0, _ => .error .truncated
  | _ + 1, [] => .error .truncated
  | fuel + 1, tag :: rest =>
    if tag = 0 then
      match rest with
      | b :: _ => .ok (.VBool (b == 1), 2)
      | [] => .error .truncated
    else if tag = 1 then
      match readCount rest with
      | .ok (n, _) => .ok (.VInt (Int.ofNat n), 5)
      | .error e => .error e
    else if tag = 2 then
      match rest with
      | b0 :: b1 :: b2 :: b3 :: _ => .ok (.VFloat b0 b1 b2 b3, 5)
      | _ => .error .truncated
    else if tag = 3 then
      match readCount rest with
      | .ok (n, r) =>
        if r.length < n then .error .truncated
        else
          match utf8Decode (r.take n) with
          | some cps => .ok (.VStr cps, 5 + n)
          | none => .error .invalidEncoding
      | .error e => .error e
    else if tag = 4 then
      match readCount rest with
      | .ok (n, r) =>
        if r.length < n then .error .truncated
        else .ok (.VBytes (r.take n), 5 + n)
      | .error e => .error e
    else if tag = 5 then
      match readCount rest with
      | .ok (n, r) =>
        match loadsListF fuel n r with
        | .ok (vs, c) => .ok (.VTuple vs, 5 + c)
        | .error e => .error e
      | .error e => .error e
    else if tag = 6 then
      match readCount rest with
      | .ok (n, r) =>
        match loadsListF fuel n r with
        | .ok (vs, c) => .ok (.VList vs, 5 + c)
        | .error e => .error e
      | .error e => .error e
    else if tag = 7 then
      match readCount rest with
      | .ok (n, r) =>
        match loadsPairsF fuel n r with
        | .ok (ps, c) => .ok (.VDict ps, 5 + c)
        | .error e => .error e
      | .error e => .error e
    else .error .unknownTag

/-- Modelled from the spec: decoding `n` consecutive elements of a tuple or
list, each recursive call reporting its consumed bytes so the next element
starts at the right offset.  Returns the elements and total bytes
consumed. -/
def loadsListF : Nat → Nat → List Nat → Except DecodeErr (List Value × Nat)
  | _, 0, _ => .ok ([], 0)
  | 0, _ + 1, _ => .error .truncated
  | fuel + 1, n + 1, data =>
    match loadsF fuel data with
    | .ok (v, c) =>
      match loadsListF fuel n (data.drop c) with
      | .ok (vs, c2) => .ok (v :: vs, c + c2)
      | .error e => .error e
    | .error e => .error e

/-- Modelled from the spec: decoding `n` consecutive key/value pairs of a
dict, each key immediately followed by its value. -/
def loadsPairsF : Nat → Nat → List Nat → Except DecodeErr (List (Value × Value) × Nat)
  | _, 0, _ => .ok ([], 0)
  | 0, _ + 1, _ => .error .truncated
  | fuel + 1, n + 1, data =>
    match loadsF fuel data with
    | .ok (k, ck) =>
      match loadsF fuel (data.drop ck) with
      | .ok (v, cv) =>
        match loadsPairsF fuel n (data.drop (ck + cv)) with
        | .ok (ps, c2) => .ok ((k, v) :: ps, ck + cv + c2)
        | .error e => .error e
      | .error e => .error e
    | .error e => .error e

end

/-- Modelled from the spec: `decode` on a byte string, with enough fuel for
any input (each decoded value consumes at least one byte). -/
def loads (data : List Nat) : Except DecodeErr (Value × Nat) :=
  loadsF (data.length + 1) data

example : loads [0, 1] = .ok (.VBool true, 2) := rfl

example : loads [1, 44, 1, 0, 0] = .ok (.VInt 300, 5) := rfl

example : loads [3, 2, 0, 0, 0, 104, 105] = .ok (.VStr [104, 105], 7) := rfl

example : loads [3, 1, 0, 0, 0, 195, 169] = .error .invalidEncoding := rfl

example : loads [5, 1, 0, 0, 0, 0, 0] = .ok (.VTuple [.VBool false], 7) := rfl

example : loads [9, 1] = .error .unknownTag := rfl

/-! ## Equations for `dumps`

The fueled encoder does not depend on the fuel once it is at least
`sizeOf` of the input; from this the usual defining equations of `dumps`
follow. -/

/-- With sufficient fuel the fueled encoder does not depend on the fuel. -/
theorem dumpsF_irrel : ∀ fuel1 : Nat,
    (∀ (fuel2 : Nat) (v : Value), sizeOf v ≤ fuel1 → sizeOf v ≤ fuel2 →
      dumpsF fuel1 v = dumpsF fuel2 v) ∧
    (∀ (fuel2 : Nat) (vs : List Value), sizeOf vs ≤ fuel1 → sizeOf vs ≤ fuel2 →
      dumpsListF fuel1 vs = dumpsListF fuel2 vs) ∧
    (∀ (fuel2 : Nat) (ps : List (Value × Value)), sizeOf ps ≤ fuel1 → sizeOf ps ≤ fuel2 →
      dumpsPairsF fuel1 ps = dumpsPairsF fuel2 ps) := by
  intro fuel1
  induction fuel1 with
  | zero =>
    refine ⟨?_, ?_, ?_⟩
    · intro f2 v h1 h2
      cases v <;> simp at h1
    · intro f2 vs h1 h2
      cases vs <;> simp at h1
    · intro f2 ps h1 h2
      cases ps <;> simp at h1
  | succ g ih =>
    obtain ⟨ihV, ihL, ihP⟩ := ih
    refine ⟨?_, ?_, ?_⟩
    · intro f2 v h1 h2
      cases f2 with
      | zero =>
        cases v <;> simp at h2
      | succ g2 =>
        cases v with
        | VBool b => simp only [dumpsF]
        | VInt i => simp only [dumpsF]
        | VFloat b0 b1 b2 b3 => simp only [dumpsF]
        | VStr s => simp only [dumpsF]
        | VBytes bs => simp only [dumpsF]
        | VOther n => simp only [dumpsF]
        | VTuple xs =>
          simp only [Value.VTuple.sizeOf_spec] at h1 h2
          simp only [dumpsF]
          simp only [ihL g2 xs (by omega) (by omega)]
        | VList xs =>
          simp only [Value.VList.sizeOf_spec] at h1 h2
          simp only [dumpsF]
          simp only [ihL g2 xs (by omega) (by omega)]
        | VDict ps =>
          simp only [Value.VDict.sizeOf_spec] at h1 h2
          simp only [dumpsF]
          simp only [ihP g2 ps (by omega) (by omega)]
    · intro f2 vs h1 h2
      cases f2 with
      | zero =>
        cases vs <;> simp at h2
      | succ g2 =>
        cases vs with
        | nil => simp only [dumpsListF]
        | cons v vs =>
          simp only [List.cons.sizeOf_spec] at h1 h2
          simp only [dumpsListF]
          simp only [ihV g2 v (by omega) (by omega), ihL g2 vs (by omega) (by omega)]
    · intro f2 ps h1 h2
      cases f2 with
      | zero =>
        cases ps <;> simp at h2
      | succ g2 =>
        cases ps with
        | nil => simp only [dumpsPairsF]
        | cons kv ps =>
          obtain ⟨k, v⟩ := kv
          simp only [List.cons.sizeOf_spec, Prod.mk.sizeOf_spec] at h1 h2
          simp only [dumpsPairsF]
          simp only [ihV g2 k (by omega) (by omega), ihV g2 v (by omega) (by omega),
            ihP g2 ps (by omega) (by omega)]

/-- Defining equation of `dumps` on bools (the first branch of the
`isinstance` chain): tag `0x00` and one byte. -/
theorem dumps_VBool (b : Bool) : dumps (.VBool b) = .ok [0, if b then 1 else 0] := by
  unfold dumps
  rw [dumpsF]

/-- Defining equation of `dumps` on ints: tag `0x01` and `pack_int`. -/
theorem dumps_VInt (i : Int) : dumps (.VInt i) = (pack_int i).map (fun p => 1 :: p) := by
  unfold dumps
  rw [dumpsF]

/-- Defining equation of `dumps` on floats: tag `0x02` and `pack_float`. -/
theorem dumps_VFloat (b0 b1 b2 b3 : Nat) : dumps (.VFloat b0 b1 b2 b3) =
    (pack_float b0 b1 b2 b3).map (fun p => 2 :: p) := by
  unfold dumps
  rw [dumpsF]

/-- Defining equation of `dumps` on strs: tag `0x03`, the packed code-point
count `pack_int(len(obj))`, then the UTF-8 bytes `obj.encode()`. -/
theorem dumps_VStr (s : List Nat) : dumps (.VStr s) =
    (pack_int (Int.ofNat s.length)).map (fun p => 3 :: p ++ utf8Encode s) := by
  unfold dumps
  rw [dumpsF]

/-- Defining equation of `dumps` on bytes: tag `0x04`, the packed length,
then the raw bytes. -/
theorem dumps_VBytes (bs : List Nat) : dumps (.VBytes bs) =
    (pack_int (Int.ofNat bs.length)).map (fun p => 4 :: p ++ bs) := by
  unfold dumps
  rw [dumpsF]

/-- Defining equation of `dumps` on tuples: tag `0x05`, the packed element
count, then the elements' encodings. -/
theorem dumps_VTuple (xs : List Value) : dumps (.VTuple xs) =
    (pack_int (Int.ofNat xs.length)).bind
      (fun p => (dumpsList xs).map (fun ds => 5 :: p ++ ds)) := by
  unfold dumps dumpsList
  rw [dumpsF]
  have e1 : dumpsListF (sizeOf (Value.VTuple xs)) xs = dumpsListF (sizeOf xs + 1) xs :=
    (dumpsF_irrel (sizeOf (Value.VTuple xs))).2.1 (sizeOf xs + 1) xs
      (by simp only [Value.VTuple.sizeOf_spec]; omega) (by omega)
  simp only [e1]

/-- Defining equation of `dumps` on lists: tag `0x06`, the packed element
count, then the elements' encodings. -/
theorem dumps_VList (xs : List Value) : dumps (.VList xs) =
    (pack_int (Int.ofNat xs.length)).bind
      (fun p => (dumpsList xs).map (fun ds => 6 :: p ++ ds)) := by
  unfold dumps dumpsList
  rw [dumpsF]
  have e1 : dumpsListF (sizeOf (Value.VList xs)) xs = dumpsListF (sizeOf xs + 1) xs :=
    (dumpsF_irrel (sizeOf (Value.VList xs))).2.1 (sizeOf xs + 1) xs
      (by simp only [Value.VList.sizeOf_spec]; omega) (by omega)
  simp only [e1]

/-- Defining equation of `dumps` on dicts: tag `0x07`, the packed pair
count, then the pairs' encodings. -/
theorem dumps_VDict (ps : List (Value × Value)) : dumps (.VDict ps) =
    (pack_int (Int.ofNat ps.length)).bind
      (fun p => (dumpsPairs ps).map (fun ds => 7 :: p ++ ds)) := by
  unfold dumps dumpsPairs
  rw [dumpsF]
  have e1 : dumpsPairsF (sizeOf (Value.VDict ps)) ps = dumpsPairsF (sizeOf ps + 1) ps :=
    (dumpsF_irrel (sizeOf (Value.VDict ps))).2.2 (sizeOf ps + 1) ps
      (by simp only [Value.VDict.sizeOf_spec]; omega) (by omega)
  simp only [e1]

/-- Defining equation of `dumps` on any other object: the final else branch
raises `NotImplementedError`. -/
theorem dumps_VOther (n : Nat) : dumps (.VOther n) = .error .notImplemented := by
  unfold dumps
  rw [dumpsF]

/-- Defining equation of the element loop on the empty list. -/
theorem dumpsList_nil : dumpsList [] = .ok [] := by
  unfold dumpsList
  rw [dumpsListF]

/-- Defining equation of the element loop: encode the head, then the
tail. -/
theorem dumpsList_cons (v : Value) (vs : List Value) : dumpsList (v :: vs) =
    (dumps v).bind (fun d => (dumpsList vs).map (fun ds => d ++ ds)) := by
  unfold dumpsList dumps
  rw [dumpsListF]
  have e1 : dumpsF (sizeOf (v :: vs)) v = dumpsF (sizeOf v + 1) v :=
    (dumpsF_irrel (sizeOf (v :: vs))).1 (sizeOf v + 1) v
      (by simp only [List.cons.sizeOf_spec]; omega) (by omega)
  have e2 : dumpsListF (sizeOf (v :: vs)) vs = dumpsListF (sizeOf vs + 1) vs :=
    (dumpsF_irrel (sizeOf (v :: vs))).2.1 (sizeOf vs + 1) vs
      (by simp only [List.cons.sizeOf_spec]; omega) (by omega)
  simp only [e1, e2]

/-- Defining equation of the item loop on the empty dict. -/
theorem dumpsPairs_nil : dumpsPairs [] = .ok [] := by
  unfold dumpsPairs
  rw [dumpsPairsF]

/-- Defining equation of the item loop: encode the key, its value, then the
remaining items. -/
theorem dumpsPairs_cons (k v : Value) (ps : List (Value × Value)) :
    dumpsPairs ((k, v) :: ps) =
    (dumps k).bind (fun dk => (dumps v).bind
      (fun dv => (dumpsPairs ps).map (fun ds => dk ++ dv ++ ds))) := by
  unfold dumpsPairs dumps
  rw [dumpsPairsF]
  have e1 : dumpsF (sizeOf ((k, v) :: ps)) k = dumpsF (sizeOf k + 1) k :=
    (dumpsF_irrel (sizeOf ((k, v) :: ps))).1 (sizeOf k + 1) k
      (by simp only [List.cons.sizeOf_spec, Prod.mk.sizeOf_spec]; omega) (by omega)
  have e2 : dumpsF (sizeOf ((k, v) :: ps)) v = dumpsF (sizeOf v + 1) v :=
    (dumpsF_irrel (sizeOf ((k, v) :: ps))).1 (sizeOf v + 1) v
      (by simp only [List.cons.sizeOf_spec, Prod.mk.sizeOf_spec]; omega) (by omega)
  have e3 : dumpsPairsF (sizeOf ((k, v) :: ps)) ps = dumpsPairsF (sizeOf ps + 1) ps :=
    (dumpsF_irrel (sizeOf ((k, v) :: ps))).2.2 (sizeOf ps + 1) ps
      (by simp only [List.cons.sizeOf_spec, Prod.mk.sizeOf_spec]; omega) (by omega)
  simp only [e1, e2, e3]

/-! ## Packing lemmas -/

/-- Successful `pack_int` characterized: the argument is in unsigned 32-bit
range and the result is its four little-endian base-256 digits. -/
theorem pack_int_ok {i : Int} {p : List Nat} (h : pack_int i = .ok p) :
    0 ≤ i ∧ i < 4294967296 ∧
      p = [i.toNat % 256, i.toNat / 256 % 256, i.toNat / 65536 % 256,
        i.toNat / 16777216 % 256] := by
  unfold pack_int struct_pack_I at h
  by_cases hc : 0 ≤ i ∧ i < 4294967296
  · simp only [hc, if_true, and_self, List.length_cons, List.length_nil] at h
    norm_num at h
    exact ⟨hc.1, hc.2, h.symm⟩
  · simp [hc] at h

/-- `pack_int` fails with `struct.error` outside the unsigned 32-bit range. -/
theorem pack_int_out_of_range {i : Int} (h : i < 0 ∨ 4294967296 ≤ i) :
    pack_int i = .error .structError := by
  unfold pack_int struct_pack_I
  have hc : ¬(0 ≤ i ∧ i < 4294967296) := by omega
  simp [hc]

/-- `pack_int` succeeds exactly on the unsigned 32-bit range. -/
theorem pack_int_in_range {i : Int} (h0 : 0 ≤ i) (h1 : i < 4294967296) :
    pack_int i = .ok [i.toNat % 256, i.toNat / 256 % 256, i.toNat / 65536 % 256,
      i.toNat / 16777216 % 256] := by
  unfold pack_int struct_pack_I
  have hc : 0 ≤ i ∧ i < 4294967296 := ⟨h0, h1⟩
  simp [hc]

/-- `pack_int` results are 4 bytes long. -/
theorem pack_int_length {i : Int} {p : List Nat} (h : pack_int i = .ok p) :
    p.length = 4 := by
  obtain ⟨-, -, hp⟩ := pack_int_ok h
  subst hp
  rfl

/-- Reading back a count packed by `pack_int` recovers the count and leaves
the remaining bytes untouched. -/
theorem readCount_pack {i : Int} {p : List Nat} (h : pack_int i = .ok p)
    (rest : List Nat) : readCount (p ++ rest) = .ok (i.toNat, rest) := by
  obtain ⟨h0, hlt, hp⟩ := pack_int_ok h
  subst hp
  simp only [List.cons_append, List.nil_append, readCount, Except.ok.injEq]
  have hn : i.toNat < 4294967296 := by omega
  congr 1
  omega

/-! ## UTF-8 lemmas for ASCII strings -/

/-- UTF-8 encoding of an all-ASCII string is the identity on code points. -/
theorem utf8Encode_ascii : ∀ {s : List Nat}, (∀ c ∈ s, c < 128) → utf8Encode s = s
  | [], _ => rfl
  | c :: cs, h => by
    have hc : c < 128 := h c (List.mem_cons_self c cs)
    have ih := utf8Encode_ascii (fun x hx => h x (List.mem_cons_of_mem c hx))
    have ih' : (List.map utf8EncodeChar cs).flatten = cs := ih
    simp only [utf8Encode, List.map_cons, List.flatten_cons]
    rw [ih', utf8EncodeChar, if_pos hc]
    rfl

/-- UTF-8 decoding of an all-ASCII byte sequence is the identity, for any
sufficient fuel. -/
theorem utf8DecodeF_ascii : ∀ (fuel : Nat) (s : List Nat), s.length ≤ fuel →
    (∀ c ∈ s, c < 128) → utf8DecodeF fuel s = some s := by
  intro fuel
  induction fuel with
  | zero =>
    intro s hl _
    cases s with
    | nil => rfl
    | cons c cs => simp at hl
  | succ f ih =>
    intro s hl h
    cases s with
    | nil => rfl
    | cons c cs =>
      have hc : c < 128 := h c (List.mem_cons_self c cs)
      have hl' : cs.length ≤ f := by
        simp only [List.length_cons] at hl
        omega
      have ih' := ih cs hl' (fun x hx => h x (List.mem_cons_of_mem c hx))
      simp only [utf8DecodeF, utf8DecodeOne, if_pos hc]
      rw [ih']
      rfl

/-- UTF-8 decoding of an all-ASCII byte sequence is the identity. -/
theorem utf8Decode_ascii {s : List Nat} (h : ∀ c ∈ s, c < 128) :
    utf8Decode s = some s :=
  utf8DecodeF_ascii s.length s le_rfl h

/-! ## The round-trip property -/

/-- The values whose strings contain only ASCII code points (below 128,
exactly the code points whose UTF-8 encoding is one byte, so that the
code-point count the encoder writes coincides with the UTF-8 byte count). -/
inductive AsciiOnly : Value → Prop where
  | bool (b : Bool) : AsciiOnly (.VBool b)
  | int (i : Int) : AsciiOnly (.VInt i)
  | float (b0 b1 b2 b3 : Nat) : AsciiOnly (.VFloat b0 b1 b2 b3)
  | str (s : List Nat) : (∀ c ∈ s, c < 128) → AsciiOnly (.VStr s)
  | bytes (bs : List Nat) : AsciiOnly (.VBytes bs)
  | tuple (xs : List Value) : (∀ v ∈ xs, AsciiOnly v) → AsciiOnly (.VTuple xs)
  | list (xs : List Value) : (∀ v ∈ xs, AsciiOnly v) → AsciiOnly (.VList xs)
  | dict (ps : List (Value × Value)) :
      (∀ p ∈ ps, AsciiOnly (Prod.fst p)) → (∀ p ∈ ps, AsciiOnly (Prod.snd p)) →
      AsciiOnly (.VDict ps)
  | other (n : Nat) : AsciiOnly (.VOther n)

/-- Every successful encoding is at least 2 bytes long (a tag byte plus at
least one payload byte). -/
theorem dumps_ok_length {v : Value} {e : List Nat} (h : dumps v = .ok e) :
    2 ≤ e.length := by
  cases v with
  | VBool b =>
    rw [dumps_VBool] at h
    simp only [Except.ok.injEq] at h
    subst h
    simp
  | VInt i =>
    rw [dumps_VInt] at h
    cases hp : pack_int i with
    | error er => rw [hp] at h; cases h
    | ok p =>
      rw [hp] at h
      simp only [Except.map, Except.ok.injEq] at h
      subst h
      simp only [List.length_cons, pack_int_length hp]
      omega
  | VFloat b0 b1 b2 b3 =>
    rw [dumps_VFloat] at h
    simp only [pack_float, struct_pack_f] at h
    norm_num [Except.map] at h
    subst h
    simp
  | VStr s =>
    rw [dumps_VStr] at h
    cases hp : pack_int (Int.ofNat s.length) with
    | error er => rw [hp] at h; cases h
    | ok p =>
      rw [hp] at h
      simp only [Except.map, Except.ok.injEq] at h
      subst h
      simp only [List.length_cons, List.length_append, pack_int_length hp]
      omega
  | VBytes bs =>
    rw [dumps_VBytes] at h
    cases hp : pack_int (Int.ofNat bs.length) with
    | error er => rw [hp] at h; cases h
    | ok p =>
      rw [hp] at h
      simp only [Except.map, Except.ok.injEq] at h
      subst h
      simp only [List.length_cons, List.length_append, pack_int_length hp]
      omega
  | VTuple xs =>
    rw [dumps_VTuple] at h
    cases hp : pack_int (Int.ofNat xs.length) with
    | error er => rw [hp] at h; cases h
    | ok p =>
      rw [hp] at h
      cases hd : dumpsList xs with
      | error er => rw [hd] at h; cases h
      | ok ds =>
        rw [hd] at h
        simp only [Except.bind, Except.map, Except.ok.injEq] at h
        subst h
        simp only [List.length_cons, List.length_append, pack_int_length hp]
        omega
  | VList xs =>
    rw [dumps_VList] at h
    cases hp : pack_int (Int.ofNat xs.length) with
    | error er => rw [hp] at h; cases h
    | ok p =>
      rw [hp] at h
      cases hd : dumpsList xs with
      | error er => rw [hd] at h; cases h
      | ok ds =>
        rw [hd] at h
        simp only [Except.bind, Except.map, Except.ok.injEq] at h
        subst h
        simp only [List.length_cons, List.length_append, pack_int_length hp]
        omega
  | VDict ps =>
    rw [dumps_VDict] at h
    cases hp : pack_int (Int.ofNat ps.length) with
    | error er => rw [hp] at h; cases h
    | ok p =>
      rw [hp] at h
      cases hd : dumpsPairs ps with
      | error er => rw [hd] at h; cases h
      | ok ds =>
        rw [hd] at h
        simp only [Except.bind, Except.map, Except.ok.injEq] at h
        subst h
        simp only [List.length_cons, List.length_append, pack_int_length hp]
        omega
  | VOther n =>
    rw [dumps_VOther] at h
    cases h

/-- The decoder inverts the encoder.  Stated over the fueled decoder with an
explicit fuel bound (any fuel beyond the encoding's length suffices), for
values whose strings are all ASCII, and generalized over trailing bytes so
that consecutive encodings decode element by element. -/
theorem loadsF_roundtrip : ∀ fuel : Nat,
    (∀ (v : Value) (e rest : List Nat), AsciiOnly v → dumps v = .ok e →
      e.length < fuel → loadsF fuel (e ++ rest) = .ok (v, e.length)) ∧
    (∀ (vs : List Value) (e rest : List Nat), (∀ v ∈ vs, AsciiOnly v) →
      dumpsList vs = .ok e → e.length + 2 ≤ fuel →
      loadsListF fuel vs.length (e ++ rest) = .ok (vs, e.length)) ∧
    (∀ (ps : List (Value × Value)) (e rest : List Nat),
      (∀ p ∈ ps, AsciiOnly (Prod.fst p)) → (∀ p ∈ ps, AsciiOnly (Prod.snd p)) →
      dumpsPairs ps = .ok e → e.length + 2 ≤ fuel →
      loadsPairsF fuel ps.length (e ++ rest) = .ok (ps, e.length)) := by
  intro fuel
  induction fuel with
  | zero =>
    refine ⟨?_, ?_, ?_⟩
    · intro v e rest _ _ hlen
      omega
    · intro vs e rest _ _ hlen
      omega
    · intro ps e rest _ _ _ hlen
      omega
  | succ g ih =>
    obtain ⟨ihV, ihL, ihP⟩ := ih
    refine ⟨?_, ?_, ?_⟩
    · intro v e rest ha hd hlen
      cases v with
      | VBool b =>
        rw [dumps_VBool] at hd
        simp only [Except.ok.injEq] at hd
        subst hd
        cases b <;> simp [loadsF]
      | VInt i =>
        rw [dumps_VInt] at hd
        cases hp : pack_int i with
        | error er => rw [hp] at hd; cases hd
        | ok p =>
          rw [hp] at hd
          simp only [Except.map, Except.ok.injEq] at hd
          subst hd
          obtain ⟨h0, hlt, hpp⟩ := pack_int_ok hp
          have hi : Int.ofNat i.toNat = i := by
            simpa using Int.toNat_of_nonneg h0
          simp [loadsF, List.cons_append, readCount_pack hp rest, hi,
            pack_int_length hp]
          omega
      | VFloat b0 b1 b2 b3 =>
        rw [dumps_VFloat] at hd
        simp only [pack_float, struct_pack_f] at hd
        norm_num [Except.map] at hd
        subst hd
        simp [loadsF]
      | VStr s =>
        cases ha with
        | str _ hascii =>
          rw [dumps_VStr] at hd
          cases hp : pack_int (Int.ofNat s.length) with
          | error er => rw [hp] at hd; cases hd
          | ok p =>
            rw [hp] at hd
            simp only [Except.map, Except.ok.injEq] at hd
            rw [utf8Encode_ascii hascii] at hd
            subst hd
            have hnl : ¬ ((s ++ rest).length < s.length) := by
              simp only [List.length_append]
              omega
            simp [loadsF, List.cons_append, List.append_assoc,
              readCount_pack hp (s ++ rest), Int.toNat_ofNat, hnl, List.take_left,
              utf8Decode_ascii hascii, pack_int_length hp]
            omega
      | VBytes bs =>
        rw [dumps_VBytes] at hd
        cases hp : pack_int (Int.ofNat bs.length) with
        | error er => rw [hp] at hd; cases hd
        | ok p =>
          rw [hp] at hd
          simp only [Except.map, Except.ok.injEq] at hd
          subst hd
          have hnl : ¬ ((bs ++ rest).length < bs.length) := by
            simp only [List.length_append]
            omega
          simp [loadsF, List.cons_append, List.append_assoc,
            readCount_pack hp (bs ++ rest), Int.toNat_ofNat, hnl, List.take_left,
            pack_int_length hp]
          omega
      | VTuple xs =>
        cases ha with
        | tuple _ hall =>
          rw [dumps_VTuple] at hd
          cases hp : pack_int (Int.ofNat xs.length) with
          | error er => rw [hp] at hd; cases hd
          | ok p =>
            rw [hp] at hd
            cases hds : dumpsList xs with
            | error er => rw [hds] at hd; cases hd
            | ok ds =>
              rw [hds] at hd
              simp only [Except.bind, Except.map, Except.ok.injEq] at hd
              subst hd
              have hlen' : ds.length + 2 ≤ g := by
                simp only [List.length_cons, List.length_append,
                  pack_int_length hp] at hlen
                omega
              have e2 := ihL xs ds rest hall hds hlen'
              simp [loadsF, List.cons_append, List.append_assoc,
                readCount_pack hp (ds ++ rest), Int.toNat_ofNat, e2,
                pack_int_length hp]
              omega
      | VList xs =>
        cases ha with
        | list _ hall =>
          rw [dumps_VList] at hd
          cases hp : pack_int (Int.ofNat xs.length) with
          | error er => rw [hp] at hd; cases hd
          | ok p =>
            rw [hp] at hd
            cases hds : dumpsList xs with
            | error er => rw [hds] at hd; cases hd
            | ok ds =>
              rw [hds] at hd
              simp only [Except.bind, Except.map, Except.ok.injEq] at hd
              subst hd
              have hlen' : ds.length + 2 ≤ g := by
                simp only [List.length_cons, List.length_append,
                  pack_int_length hp] at hlen
                omega
              have e2 := ihL xs ds rest hall hds hlen'
              simp [loadsF, List.cons_append, List.append_assoc,
                readCount_pack hp (ds ++ rest), Int.toNat_ofNat, e2,
                pack_int_length hp]
              omega
      | VDict ps =>
        cases ha with
        | dict _ hall1 hall2 =>
          rw [dumps_VDict] at hd
          cases hp : pack_int (Int.ofNat ps.length) with
          | error er => rw [hp] at hd; cases hd
          | ok p =>
            rw [hp] at hd
            cases hds : dumpsPairs ps with
            | error er => rw [hds] at hd; cases hd
            | ok ds =>
              rw [hds] at hd
              simp only [Except.bind, Except.map, Except.ok.injEq] at hd
              subst hd
              have hlen' : ds.length + 2 ≤ g := by
                simp only [List.length_cons, List.length_append,
                  pack_int_length hp] at hlen
                omega
              have e2 := ihP ps ds rest hall1 hall2 hds hlen'
              simp [loadsF, List.cons_append, List.append_assoc,
                readCount_pack hp (ds ++ rest), Int.toNat_ofNat, e2,
                pack_int_length hp]
              omega
      | VOther n =>
        rw [dumps_VOther] at hd
        cases hd
    · intro vs e rest hall hd hb
      cases vs with
      | nil =>
        rw [dumpsList_nil] at hd
        simp only [Except.ok.injEq] at hd
        subst hd
        simp only [List.length_nil, List.nil_append]
        rw [loadsListF]
      | cons v vs =>
        rw [dumpsList_cons] at hd
        cases hv : dumps v with
        | error er => rw [hv] at hd; cases hd
        | ok d =>
          rw [hv] at hd
          cases hs : dumpsList vs with
          | error er => rw [hs] at hd; cases hd
          | ok ds =>
            rw [hs] at hd
            simp only [Except.bind, Except.map, Except.ok.injEq] at hd
            subst hd
            have hd2 : 2 ≤ d.length := dumps_ok_length hv
            have hblen : d.length + ds.length + 2 ≤ g + 1 := by
              simp only [List.length_append] at hb
              omega
            have e1 := ihV v d (ds ++ rest) (hall v (List.mem_cons_self v vs)) hv
              (by omega)
            have e2 := ihL vs ds rest (fun x hx => hall x (List.mem_cons_of_mem v hx))
              hs (by omega)
            simp [loadsListF, List.length_cons, List.append_assoc, e1,
              List.drop_left, e2]
    · intro ps e rest hall1 hall2 hd hb
      cases ps with
      | nil =>
        rw [dumpsPairs_nil] at hd
        simp only [Except.ok.injEq] at hd
        subst hd
        simp only [List.length_nil, List.nil_append]
        rw [loadsPairsF]
      | cons kv ps =>
        obtain ⟨k, v⟩ := kv
        rw [dumpsPairs_cons] at hd
        cases hk : dumps k with
        | error er => rw [hk] at hd; cases hd
        | ok dk =>
          rw [hk] at hd
          cases hv : dumps v with
          | error er => rw [hv] at hd; cases hd
          | ok dv =>
            rw [hv] at hd
            cases hs : dumpsPairs ps with
            | error er => rw [hs] at hd; cases hd
            | ok ds =>
              rw [hs] at hd
              simp only [Except.bind, Except.map, Except.ok.injEq] at hd
              subst hd
              have hk2 : 2 ≤ dk.length := dumps_ok_length hk
              have hv2 : 2 ≤ dv.length := dumps_ok_length hv
              have hblen : dk.length + dv.length + ds.length + 2 ≤ g + 1 := by
                simp only [List.length_append] at hb
                omega
              have hak : AsciiOnly k := hall1 (k, v) (List.mem_cons_self (k, v) ps)
              have hav : AsciiOnly v := hall2 (k, v) (List.mem_cons_self (k, v) ps)
              have e1 := ihV k dk (dv ++ (ds ++ rest)) hak hk (by omega)
              have e2 := ihV v dv (ds ++ rest) hav hv (by omega)
              have hdrop : (dk ++ (dv ++ (ds ++ rest))).drop (dk.length + dv.length) =
                  ds ++ rest := by
                rw [← List.append_assoc]
                exact List.drop_left' (by simp)
              have e3 := ihP ps ds rest
                (fun x hx => hall1 x (List.mem_cons_of_mem (k, v) hx))
                (fun x hx => hall2 x (List.mem_cons_of_mem (k, v) hx)) hs (by omega)
              simp [loadsPairsF, List.length_cons, List.append_assoc, e1,
                List.drop_left, e2, hdrop, e3]
              omega

/-! ## Decimal representation and header lemmas -/

/-- `decReprAux` of 0 is empty at any fuel. -/
theorem decReprAux_zero : ∀ fuel : Nat, decReprAux fuel 0 = []
  | 0 => rfl
  | _ + 1 => by rw [decReprAux]; simp

/-- Every byte `decReprAux` emits is an ASCII digit. -/
theorem decReprAux_digits : ∀ (fuel n : Nat), ∀ c ∈ decReprAux fuel n,
    48 ≤ c ∧ c ≤ 57 := by
  intro fuel
  induction fuel with
  | zero => intro n c hc; cases hc
  | succ f ih =>
    intro n c hc
    rw [decReprAux] at hc
    by_cases hn : n = 0
    · simp [hn] at hc
    · rw [if_neg hn] at hc
      rcases List.mem_append.mp hc with h | h
      · exact ih (n / 10) c h
      · simp at h
        subst h
        have := Nat.mod_lt n (show 0 < 10 by omega)
        omega

/-- Folding the decimal digits back into a number recovers it (with an
arbitrary accumulator). -/
theorem decReprAux_foldl : ∀ (fuel n a : Nat), n ≤ fuel →
    List.foldl (fun x c => 10 * x + (c - 48)) a (decReprAux fuel n) =
      a * 10 ^ (decReprAux fuel n).length + n := by
  intro fuel
  induction fuel with
  | zero =>
    intro n a h
    have : n = 0 := by omega
    subst this
    simp [decReprAux]
  | succ f ih =>
    intro n a h
    by_cases hn : n = 0
    · subst hn
      simp [decReprAux]
    · have hrec : n / 10 ≤ f := by
        have := Nat.div_lt_self (by omega : 0 < n) (by omega : 1 < 10)
        omega
      rw [decReprAux, if_neg hn]
      rw [List.foldl_append]
      rw [ih (n / 10) a hrec]
      simp only [List.length_append, List.length_cons, List.length_nil, List.foldl_cons,
        List.foldl_nil]
      have hmod : n % 10 + 48 - 48 = n % 10 := by omega
      rw [hmod]
      have hdm : 10 * (n / 10) + n % 10 = n := by omega
      rw [Nat.mul_add, pow_succ]
      ring_nf
      omega

/-- `decReprAux` with positive input and fuel is nonempty. -/
theorem decReprAux_ne_nil (f n : Nat) (hn : n ≠ 0) : decReprAux (f + 1) n ≠ [] := by
  rw [decReprAux, if_neg hn]
  simp

/-- Every byte of `str(n)` is an ASCII digit. -/
theorem decRepr_digits (n : Nat) : ∀ c ∈ decRepr n, 48 ≤ c ∧ c ≤ 57 := by
  intro c hc
  unfold decRepr at hc
  by_cases hn : n = 0
  · simp [hn] at hc
    omega
  · rw [if_neg hn] at hc
    exact decReprAux_digits n n c hc

/-- `str(n)` is never empty. -/
theorem decRepr_ne_nil (n : Nat) : decRepr n ≠ [] := by
  unfold decRepr
  by_cases hn : n = 0
  · simp [hn]
  · rw [if_neg hn]
    cases n with
    | zero => exact absurd rfl hn
    | succ m => exact decReprAux_ne_nil m (m + 1) hn

/-- Parsing the digits of `str(n)` yields `n`. -/
theorem decRepr_foldl (n : Nat) :
    List.foldl (fun x c => 10 * x + (c - 48)) 0 (decRepr n) = n := by
  unfold decRepr
  by_cases hn : n = 0
  · simp [hn]
  · rw [if_neg hn]
    rw [decReprAux_foldl n n 0 le_rfl]
    simp

/-- `str(10^k)` is the digit 1 followed by `k` digits 0. -/
theorem decRepr_pow10 : ∀ k : Nat, decRepr (10 ^ k) = 49 :: List.replicate k 48 := by
  have haux : ∀ (k fuel : Nat), 10 ^ k ≤ fuel →
      decReprAux fuel (10 ^ k) = 49 :: List.replicate k 48 := by
    intro k
    induction k with
    | zero =>
      intro fuel h
      simp only [pow_zero] at h ⊢
      cases fuel with
      | zero => omega
      | succ f =>
        rw [decReprAux]
        simp [decReprAux_zero]
    | succ k ih =>
      intro fuel h
      have hpos : 0 < 10 ^ (k + 1) := Nat.pos_pow_of_pos _ (by omega)
      cases fuel with
      | zero => omega
      | succ f =>
        rw [decReprAux, if_neg (by omega)]
        have hdiv : 10 ^ (k + 1) / 10 = 10 ^ k := by
          rw [pow_succ]
          exact Nat.mul_div_cancel _ (by omega)
        have hmod : 10 ^ (k + 1) % 10 = 0 := by
          rw [pow_succ]
          simp
        rw [hdiv, hmod]
        have hk : 10 ^ k ≤ f := by
          have h1 : 10 ^ k < 10 ^ (k + 1) := by
            have := Nat.pos_pow_of_pos k (show 0 < 10 by omega)
            calc 10 ^ k < 10 ^ k * 10 := by omega
            _ = 10 ^ (k + 1) := (pow_succ 10 k).symm
          omega
        rw [ih f hk]
        rw [List.replicate_succ']
        simp
  intro k
  unfold decRepr
  rw [if_neg (by positivity)]
  exact haux k (10 ^ k) le_rfl

/-- The header is always exactly 64 bytes. -/
theorem mkHeader_length (n : Nat) : (mkHeader n).length = headerWidth := by
  unfold mkHeader padding
  simp only [List.length_take, List.length_append, List.length_replicate]
  have := decRepr_ne_nil n
  omega

/-- When the decimal representation fits, the header is the digits
right-padded with spaces. -/
theorem mkHeader_pad {n : Nat} (h : (decRepr n).length ≤ headerWidth) :
    mkHeader n = decRepr n ++ List.replicate (headerWidth - (decRepr n).length) 32 := by
  unfold mkHeader padding
  rw [List.take_append_eq_append_take]
  rw [List.take_of_length_le h]
  rw [List.take_replicate]
  rw [min_eq_left (Nat.sub_le _ _)]

/-- When the decimal representation does not fit, the header is its first 64
characters: silent truncation, no error. -/
theorem mkHeader_trunc {n : Nat} (h : headerWidth < (decRepr n).length) :
    mkHeader n = (decRepr n).take headerWidth := by
  unfold mkHeader padding
  rw [List.take_append_eq_append_take]
  have : headerWidth - (decRepr n).length = 0 := by omega
  rw [this]
  simp

/-- `dropWhile isSpaceB` over leading spaces reaches the remainder. -/
theorem dropWhile_space_replicate (k : Nat) (t : List Nat) :
    (List.replicate k 32 ++ t).dropWhile isSpaceB = t.dropWhile isSpaceB := by
  induction k with
  | zero => simp
  | succ m ih =>
    rw [List.replicate_succ]
    simp [List.dropWhile_cons, isSpaceB, ih]

/-- `dropWhile isSpaceB` is the identity on a digit-headed list. -/
theorem dropWhile_space_digits {s : List Nat} (hs : ∀ c ∈ s, 48 ≤ c ∧ c ≤ 57) :
    s.dropWhile isSpaceB = s := by
  cases s with
  | nil => rfl
  | cons c cs =>
    rw [List.dropWhile_cons]
    have := hs c (List.mem_cons_self c cs)
    have hc : isSpaceB c = false := by
      simp [isSpaceB]
      omega
    simp [hc]

/-- Stripping spaces from a nonempty all-digit string padded with trailing
spaces recovers the digit string. -/
theorem trimSpaces_digits_pad {s : List Nat} (hs : ∀ c ∈ s, 48 ≤ c ∧ c ≤ 57)
    (hne : s ≠ []) (k : Nat) : trimSpaces (s ++ List.replicate k 32) = s := by
  unfold trimSpaces
  have h1 : (s ++ List.replicate k 32).dropWhile isSpaceB = s ++ List.replicate k 32 := by
    cases s with
    | nil => exact absurd rfl hne
    | cons c cs =>
      rw [List.cons_append, List.dropWhile_cons]
      have hd := hs c (List.mem_cons_self c cs)
      have hc : isSpaceB c = false := by
        simp only [isSpaceB, beq_eq_false_iff_ne, ne_eq]
        omega
      simp [hc]
  rw [h1]
  rw [List.reverse_append, List.reverse_replicate]
  rw [dropWhile_space_replicate]
  rw [dropWhile_space_digits (by
    intro c hc
    exact hs c (List.mem_reverse.mp hc))]
  exact List.reverse_reverse s

/-- Parsing a header built from a representable length recovers it. -/
theorem parseHeader_pad {n : Nat} (h : (decRepr n).length ≤ headerWidth) :
    parseHeader (mkHeader n) = some n := by
  rw [mkHeader_pad h]
  unfold parseHeader
  rw [trimSpaces_digits_pad (decRepr_digits n) (decRepr_ne_nil n)]
  have hall : (decRepr n).all isDigitB = true := by
    rw [List.all_eq_true]
    intro c hc
    have := decRepr_digits n c hc
    simp only [isDigitB, decide_eq_true_eq]
    omega
  rw [if_pos ⟨decRepr_ne_nil n, hall⟩]
  rw [decRepr_foldl n]

/-- Folding trailing zero digits multiplies the accumulator by a power of
ten. -/
theorem foldl_digits_replicate_zero : ∀ (k a : Nat),
    List.foldl (fun x c => 10 * x + (c - 48)) a (List.replicate k 48) = a * 10 ^ k := by
  intro k
  induction k with
  | zero => simp
  | succ m ih =>
    intro a
    rw [List.replicate_succ, List.foldl_cons]
    rw [ih]
    have : 10 * a + (48 - 48) = 10 * a := by omega
    rw [this, pow_succ]
    ring

/-! ## Chunking lemmas -/

/-- The chunks concatenate back to the data (with enough fuel). -/
theorem packetsF_flatten : ∀ (fuel : Nat) (data : List Nat), data.length ≤ fuel →
    (packetsF fuel data).flatten = data := by
  intro fuel
  induction fuel with
  | zero =>
    intro data h
    have : data = [] := by
      cases data with
      | nil => rfl
      | cons a l => simp at h
    subst this
    rfl
  | succ f ih =>
    intro data h
    rw [packetsF]
    by_cases hd : data = []
    · simp [hd]
    · rw [if_neg hd]
      simp only [List.flatten_cons]
      rw [ih (data.drop (min data.length packet_size))]
      · exact List.take_append_drop _ data
      · have hpos : 0 < data.length := List.length_pos.mpr hd
        simp only [List.length_drop]
        have : 0 < min data.length packet_size := by
          simp only [packet_size]
          omega
        omega

/-- Every chunk is at most `packet_size` bytes. -/
theorem packetsF_le : ∀ (fuel : Nat) (data : List Nat), ∀ c ∈ packetsF fuel data,
    c.length ≤ packet_size := by
  intro fuel
  induction fuel with
  | zero =>
    intro data c hc
    cases hc
  | succ f ih =>
    intro data c hc
    rw [packetsF] at hc
    by_cases hd : data = []
    · simp [hd] at hc
    · rw [if_neg hd] at hc
      rcases List.mem_cons.mp hc with h | h
      · subst h
        simp only [List.length_take]
        omega
      · exact ih _ c h

/-! ## Closed-connection behavior of the `recv` loops -/

/-- If the connection closed before 64 header bytes were available, the
header loop of `recv` never finishes, whatever number of iterations we
observe: each further `recv` returns `b""` and the loop just spins. -/
theorem recvHeaderLoop_none : ∀ (fuel : Nat) (acc conn : List Nat),
    acc.length + conn.length < headerWidth → recvHeaderLoop fuel acc conn = none := by
  intro fuel
  induction fuel with
  | zero => intro acc conn _; rfl
  | succ f ih =>
    intro acc conn h
    rw [recvHeaderLoop]
    rw [if_pos (by omega)]
    apply ih
    simp only [sockRecv, List.length_append, List.length_take, List.length_drop]
    omega

/-- If the connection closed before the declared payload length was
available, the payload loop of `recv` never finishes either. -/
theorem recvPayloadLoop_none : ∀ (fuel length : Nat) (acc conn : List Nat),
    acc.length + conn.length < length →
    recvPayloadLoop fuel length acc conn = none := by
  intro fuel
  induction fuel with
  | zero => intro length acc conn _; rfl
  | succ f ih =>
    intro length acc conn h
    rw [recvPayloadLoop]
    rw [if_pos (by omega)]
    apply ih
    simp only [sockRecv, List.length_append, List.length_take, List.length_drop]
    omega

/-! ## The claims -/

/-- Claim C1, counterexample: `decode` and `encode` are not exact inverses
for every supported Value.  For the one-character Text "é" (code point 233)
the encoder writes length field 1 (the code-point count) but two UTF-8
payload bytes, so the decoder reads back a one-byte payload `[0xC3]`, which
is not valid UTF-8: decoding the encoding fails instead of returning the
value. -/
theorem C1_counterexample :
    dumps (.VStr [233]) = .ok [3, 1, 0, 0, 0, 195, 169] ∧
    loads [3, 1, 0, 0, 0, 195, 169] = .error .invalidEncoding ∧
    loads [3, 1, 0, 0, 0, 195, 169] ≠ .ok (.VStr [233], 7) := by
  refine ⟨rfl, rfl, ?_⟩
  intro h
  rw [show loads [3, 1, 0, 0, 0, 195, 169] = .error .invalidEncoding from rfl] at h
  exact Except.noConfusion h

/-- Claim C1 (amended): for every supported Value whose strings contain
only ASCII code points, decode and encode are exact inverses:
`decode(encode(v))` returns the pair `(v, len(encode(v)))`. -/
theorem C1_roundtrip_ascii (v : Value) (e : List Nat) (ha : AsciiOnly v)
    (hd : dumps v = .ok e) : loads e = .ok (v, e.length) := by
  unfold loads
  have h := (loadsF_roundtrip (e.length + 1)).1 v e [] ha hd (by omega)
  simpa using h

/-- Witness for C1 at the concrete value `[5, "hi"]` (a list holding an int
and an ASCII string). -/
theorem C1_roundtrip_ascii_witness :
    AsciiOnly (Value.VList [.VInt 5, .VStr [104, 105]]) ∧
    dumps (Value.VList [.VInt 5, .VStr [104, 105]]) =
      .ok [6, 2, 0, 0, 0, 1, 5, 0, 0, 0, 3, 2, 0, 0, 0, 104, 105] ∧
    loads [6, 2, 0, 0, 0, 1, 5, 0, 0, 0, 3, 2, 0, 0, 0, 104, 105] =
      .ok (Value.VList [.VInt 5, .VStr [104, 105]], 17) := by
  have ha : AsciiOnly (Value.VList [.VInt 5, .VStr [104, 105]]) := by
    refine .list _ ?_
    intro v hv
    simp only [List.mem_cons, List.not_mem_nil, or_false] at hv
    rcases hv with h | h <;> subst h
    · exact .int 5
    · exact .str _ (by decide)
  exact ⟨ha, rfl, C1_roundtrip_ascii _ _ ha rfl⟩

/-- Claim C2, counterexample: for the Text "é" (one code point, two UTF-8
bytes) the 4-byte length field holds 1, the code-point count, not 2, the
UTF-8 byte count the claim asserts. -/
theorem C2_counterexample :
    dumps (.VStr [233]) = .ok (3 :: [1, 0, 0, 0] ++ utf8Encode [233]) ∧
    utf8Encode [233] = [195, 169] ∧
    dumps (.VStr [233]) ≠ .ok (3 :: [2, 0, 0, 0] ++ utf8Encode [233]) := by
  refine ⟨rfl, rfl, ?_⟩
  intro hcontra
  rw [show dumps (.VStr [233]) = .ok [3, 1, 0, 0, 0, 195, 169] from rfl] at hcontra
  rw [show (3 :: [2, 0, 0, 0] ++ utf8Encode [233] : List Nat) =
    [3, 2, 0, 0, 0, 195, 169] from rfl] at hcontra
  have := Except.ok.inj hcontra
  simp at this

/-- Claim C2 (amended): for every Text value whose length is representable,
encode emits tag 0x03, then a 4-byte little-endian length equal to the
number of code points of the string (which is the UTF-8 byte count only
when the string is ASCII), then the UTF-8 bytes. -/
theorem C2_text_encoding (s : List Nat) (h : s.length < 4294967296) :
    dumps (.VStr s) = .ok (3 :: [s.length % 256, s.length / 256 % 256,
      s.length / 65536 % 256, s.length / 16777216 % 256] ++ utf8Encode s) := by
  rw [dumps_VStr]
  rw [@pack_int_in_range (Int.ofNat s.length)
    (by rw [Int.ofNat_eq_coe]; omega) (by rw [Int.ofNat_eq_coe]; omega)]
  simp [Int.toNat_ofNat, Except.map]

/-- Witness for C2 at the ASCII string "hi". -/
theorem C2_text_encoding_witness :
    ([104, 105] : List Nat).length < 4294967296 ∧
    dumps (.VStr [104, 105]) = .ok [3, 2, 0, 0, 0, 104, 105] := by
  refine ⟨by decide, ?_⟩
  exact C2_text_encoding [104, 105] (by decide)

/-- Claim C3: if the connection is closed before the 64 header bytes, or
before the declared number of payload bytes, have been accumulated, `recv`
does NOT fail with any error — no `FrameError` exists in the code — and
instead its accumulation loops never finish: a closed socket returns `b""`
from every further `recv`, so the loops spin forever, whatever number of
iterations we observe. -/
theorem C3_recv_loops_forever :
    (∀ (fuel : Nat) (acc conn : List Nat), acc.length + conn.length < headerWidth →
      recvHeaderLoop fuel acc conn = none) ∧
    (∀ (fuel length : Nat) (acc conn : List Nat), acc.length + conn.length < length →
      recvPayloadLoop fuel length acc conn = none) :=
  ⟨fun fuel acc conn h => recvHeaderLoop_none fuel acc conn h,
   fun fuel length acc conn h => recvPayloadLoop_none fuel length acc conn h⟩

/-- Witness for C3: a connection closed after delivering 10 bytes, observed
for 1000 loop iterations of either loop. -/
theorem C3_recv_loops_forever_witness :
    (([] : List Nat).length + (List.replicate 10 0 : List Nat).length < headerWidth) ∧
    recvHeaderLoop 1000 [] (List.replicate 10 0) = none ∧
    (([] : List Nat).length + (List.replicate 10 0 : List Nat).length < 100) ∧
    recvPayloadLoop 1000 100 [] (List.replicate 10 0) = none :=
  ⟨by decide, C3_recv_loops_forever.1 1000 [] _ (by decide), by decide,
   C3_recv_loops_forever.2 1000 100 [] _ (by decide)⟩

/-- Claim C4, counterexample: a payload length whose decimal representation
has 65 characters is not rejected: `send` silently truncates the header to
the first 64 characters, which then parses back as a length 10 times
smaller. -/
theorem C4_counterexample :
    headerWidth < (decRepr (10 ^ 64)).length ∧
    mkHeader (10 ^ 64) = 49 :: List.replicate 63 48 ∧
    parseHeader (mkHeader (10 ^ 64)) = some (10 ^ 63) ∧
    (10 ^ 63 : Nat) ≠ 10 ^ 64 := by
  have hdl : decRepr (10 ^ 64) = 49 :: List.replicate 64 48 := decRepr_pow10 64
  have hlt : headerWidth < (decRepr (10 ^ 64)).length := by
    rw [hdl]
    simp only [List.length_cons, List.length_replicate, headerWidth]
    omega
  have hmk : mkHeader (10 ^ 64) = 49 :: List.replicate 63 48 := by
    rw [mkHeader_trunc hlt, hdl]
    rw [show headerWidth = 63 + 1 from rfl]
    rw [List.take_succ_cons, List.take_replicate]
    rw [min_eq_left (by omega)]
  have hdig : ∀ c ∈ (49 :: List.replicate 63 48 : List Nat), 48 ≤ c ∧ c ≤ 57 := by
    intro c hc
    rcases List.mem_cons.mp hc with h | h
    · subst h; omega
    · have := List.eq_of_mem_replicate h
      subst this
      omega
  have htrim : trimSpaces (49 :: List.replicate 63 48) = 49 :: List.replicate 63 48 := by
    have h := trimSpaces_digits_pad hdig (by simp) 0
    simpa using h
  have hparse : parseHeader (mkHeader (10 ^ 64)) = some (10 ^ 63) := by
    rw [hmk]
    unfold parseHeader
    rw [htrim]
    have hall : (49 :: List.replicate 63 48 : List Nat).all isDigitB = true := by
      rw [List.all_eq_true]
      intro c hc
      have := hdig c hc
      simp only [isDigitB, decide_eq_true_eq]
      omega
    rw [if_pos ⟨by simp, hall⟩]
    rw [List.foldl_cons, foldl_digits_replicate_zero]
    norm_num
  exact ⟨hlt, hmk, hparse, by norm_num⟩

/-- Claim C4 (amended): `send` always emits a header of exactly 64 bytes;
when the decimal representation of the payload length has at most 64
characters the header is that representation right-padded with spaces, and
when it is longer the header is silently truncated to its first 64
characters — no error is raised. -/
theorem C4_header_pad_or_truncate (n : Nat) :
    (mkHeader n).length = headerWidth ∧
    ((decRepr n).length ≤ headerWidth →
      mkHeader n = decRepr n ++ List.replicate (headerWidth - (decRepr n).length) 32) ∧
    (headerWidth < (decRepr n).length → mkHeader n = (decRepr n).take headerWidth) :=
  ⟨mkHeader_length n, fun h => mkHeader_pad h, fun h => mkHeader_trunc h⟩

/-- Witness for C4: the padded branch at length 420 and the truncating
branch at length 10^64. -/
theorem C4_header_pad_or_truncate_witness :
    (decRepr 420).length ≤ headerWidth ∧
    mkHeader 420 = decRepr 420 ++ List.replicate (headerWidth - (decRepr 420).length) 32 ∧
    headerWidth < (decRepr (10 ^ 64)).length ∧
    mkHeader (10 ^ 64) = (decRepr (10 ^ 64)).take headerWidth := by
  have h1 : (decRepr 420).length ≤ headerWidth := by decide
  have h2 : headerWidth < (decRepr (10 ^ 64)).length := by
    rw [decRepr_pow10 64]
    simp only [List.length_cons, List.length_replicate, headerWidth]
    omega
  exact ⟨h1, (C4_header_pad_or_truncate 420).2.1 h1, h2,
    (C4_header_pad_or_truncate (10 ^ 64)).2.2 h2⟩

/-- Claim C5: for every int in unsigned 32-bit range, encode emits tag 0x01
followed by exactly the 4 little-endian bytes of the value; an int outside
that range (so its canonical unsigned 32-bit representation does not fit in
4 bytes) raises `struct.error` at encode time and is never silently
truncated. -/
theorem C5_int_encoding (i : Int) :
    (0 ≤ i → i < 4294967296 →
      dumps (.VInt i) = .ok [1, i.toNat % 256, i.toNat / 256 % 256,
        i.toNat / 65536 % 256, i.toNat / 16777216 % 256]) ∧
    ((i < 0 ∨ 4294967296 ≤ i) → dumps (.VInt i) = .error .structError) := by
  constructor
  · intro h0 h1
    rw [dumps_VInt, pack_int_in_range h0 h1]
    rfl
  · intro h
    rw [dumps_VInt, pack_int_out_of_range h]
    rfl

/-- Witness for C5: 0x12345678 encodes little-endian; -1 is rejected. -/
theorem C5_int_encoding_witness :
    ((0 : Int) ≤ 305419896 ∧ (305419896 : Int) < 4294967296 ∧
      dumps (.VInt 305419896) = .ok [1, 120, 86, 52, 18]) ∧
    (((-1 : Int) < 0 ∨ (4294967296 : Int) ≤ -1) ∧
      dumps (.VInt (-1)) = .error .structError) :=
  ⟨⟨by decide, by decide, (C5_int_encoding 305419896).1 (by decide) (by decide)⟩,
   ⟨Or.inl (by decide), (C5_int_encoding (-1)).2 (Or.inl (by decide))⟩⟩

/-- Claim C6: `send` splits every payload into consecutive chunks of at
most 8192 bytes whose in-order concatenation is the payload, and the bytes
handed to the socket are exactly the header followed by those chunks in
sequence. -/
theorem C6_chunking (data : List Nat) :
    (packets data).flatten = data ∧
    sendFrame data = mkHeader data.length ++ data ∧
    (∀ c ∈ packets data, c.length ≤ packet_size) := by
  refine ⟨packetsF_flatten data.length data le_rfl, ?_, ?_⟩
  · unfold sendFrame packets
    rw [packetsF_flatten data.length data le_rfl]
  · intro c hc
    exact packetsF_le data.length data c hc

/-- Witness for C6 at the 3-byte payload `[1, 2, 3]`. -/
theorem C6_chunking_witness :
    ([1, 2, 3] : List Nat) ∈ packets [1, 2, 3] ∧
    ([1, 2, 3] : List Nat).length ≤ packet_size ∧
    (packets [1, 2, 3]).flatten = [1, 2, 3] ∧
    sendFrame [1, 2, 3] = mkHeader 3 ++ [1, 2, 3] := by
  refine ⟨by decide, (C6_chunking [1, 2, 3]).2.2 [1, 2, 3] (by decide),
    (C6_chunking [1, 2, 3]).1, ?_⟩
  exact (C6_chunking [1, 2, 3]).2.1

/-- Claim C7: for every input value outside the closed variant set (bool,
int, float, str, bytes, tuple, list, dict), encode fails — the final else
branch raises `NotImplementedError` — rather than producing bytes. -/
theorem C7_unsupported_type (n : Nat) : dumps (.VOther n) = .error .notImplemented :=
  dumps_VOther n

/-- Claim C8: for every bool, encode emits tag 0x00 and one byte (1 for
True, 0 for False), never the Int32 tag 0x01, even though in Python
`isinstance(bool_value, int)` holds: the bool branch of the `isinstance`
chain is tested first.  The last conjunct shows what the int branch would
have produced — a tag-0x01 five-byte encoding — had it been reached. -/
theorem C8_bool_before_int (b : Bool) :
    isinstance_bool (.VBool b) = true ∧
    isinstance_int (.VBool b) = true ∧
    dumps (.VBool b) = .ok [0, if b then 1 else 0] ∧
    (pack_int (if b then 1 else 0)).map (fun p => 1 :: p) =
      .ok [1, if b then 1 else 0, 0, 0, 0] := by
  refine ⟨rfl, rfl, dumps_VBool b, ?_⟩
  cases b <;> rfl

/-- Claim C9: header round-trip — for every payload length whose decimal
representation has at most 64 characters, parsing the header `send` builds
(decimal digits right-padded with spaces to 64 bytes) as `recv` does, with
padding trimmed, yields exactly that length. -/
theorem C9_header_roundtrip (n : Nat) (h : (decRepr n).length ≤ headerWidth) :
    parseHeader (mkHeader n) = some n :=
  parseHeader_pad h

/-- Witness for C9 at length 420. -/
theorem C9_header_roundtrip_witness :
    (decRepr 420).length ≤ headerWidth ∧ parseHeader (mkHeader 420) = some 420 :=
  ⟨by decide, C9_header_roundtrip 420 (by decide)⟩

/-- Claim C10: the explicit `ValueError` length-check branches of
`pack_int` and `pack_float` are unreachable: `pack_int` behaves exactly
like bare `struct.pack("<I", ·)` (which raises on out-of-range input and
otherwise returns exactly 4 bytes), and `pack_float` always succeeds with
exactly the 4 bytes of `struct.pack("f", ·)`. -/
theorem C10_length_check_unreachable :
    (∀ i : Int, pack_int i = struct_pack_I i) ∧
    (∀ b0 b1 b2 b3 : Nat, pack_float b0 b1 b2 b3 = .ok (struct_pack_f b0 b1 b2 b3)) := by
  constructor
  · intro i
    unfold pack_int struct_pack_I
    by_cases hc : 0 ≤ i ∧ i < 4294967296
    · simp [hc]
    · simp [hc]
  · intro b0 b1 b2 b3
    rfl
